import Mathlib

/-!
Verification of the dsldoc dictionary-source checker (`src/main.rs`).

Lines and tokens are modelled as `List Char`; each Rust function of the
grammar engine (`tag_type`, `line_type`, `can_follow`, `parse_line`,
`check_grammar`'s per-line step, `fix_up_line`, the per-line step of
`fix_invalid_tags`) is translated to an executable Lean definition of the
same name.  Printing of diagnostics is modelled by structured values that
carry exactly the data the corresponding `format!`/`println!` interpolates.
-/

set_option maxHeartbeats 1000000

namespace Dsldoc

/-- The `DState` enumeration of `main.rs`, verbatim. -/
inductive DState where
  | Begin | Name | Index | Lang | EmptyLine | Key | Comment | Text
  | M1 | M2 | P | I | C | B | Ex | RomanNumber | LangID
  | MClose | IClose | ComClose | PClose | CClose | BClose | ExClose | LangIDClose
  | Invalid
deriving DecidableEq, Repr, Fintype

/-- Lean model of Rust `char::is_whitespace` restricted to the characters the
repository's inputs use (ASCII whitespace); used by `str::trim`. -/
def isWS (c : Char) : Bool :=
  c = ' ' || c = '\t' || c = '\n' || c = '\r'

/-- Rust `str::trim`: drop whitespace from both ends. -/
def trim (s : List Char) : List Char :=
  ((s.dropWhile isWS).reverse.dropWhile isWS).reverse

/-- Rust `str::contains(pattern)`: `hasInfix p s` holds when `p` occurs as a
contiguous substring of `s`. -/
def hasInfix (p : List Char) : List Char → Bool
  | [] => p.isPrefixOf []
  | c :: cs => p.isPrefixOf (c :: cs) || hasInfix p cs

/-- `tag_type` from `main.rs`: classify one bracket token. -/
def tag_type (s : List Char) : DState :=
  if "[lang id=".data.isPrefixOf s then .LangID
  else if s = "[com]".data then .Comment
  else if s = "[/com]".data then .ComClose
  else if s = "[m1]".data then .M1
  else if s = "[m2]".data then .M2
  else if s = "[/m]".data then .MClose
  else if s = "[p]".data then .P
  else if s = "[/p]".data then .PClose
  else if s = "[i]".data then .I
  else if s = "[/i]".data then .IClose
  else if s = "[ex]".data then .Ex
  else if s = "[/ex]".data then .ExClose
  else if s = "[c]".data then .C
  else if s = "[/c]".data then .CClose
  else if s = "[b]".data then .B
  else if s = "[/b]".data then .BClose
  else if s = "[/lang]".data then .LangIDClose
  else .Invalid

/-- `line_type` from `main.rs`: classify one physical line. -/
def line_type (s : List Char) : DState :=
  if s = [] then .EmptyLine
  else if "#NAME ".data.isPrefixOf s then .Name
  else if "#INDEX_LANGUAGE ".data.isPrefixOf s then .Index
  else if "#CONTENTS_LANGUAGE ".data.isPrefixOf s then .Lang
  else if ¬ ['\t'].isPrefixOf s then .Key
  else if trim s = "I".data ∨ trim s = "II".data ∨ trim s = "III".data ∨
          trim s = "IV".data ∨ trim s = "V".data ∨ trim s = "VI".data ∨
          trim s = "VII".data ∨ trim s = "VIII".data ∨ trim s = "IX".data ∨
          trim s = "X".data then .RomanNumber
  else if ¬ "\t[".data.isPrefixOf s then .Text
  else if "\t[m1]".data.isPrefixOf s then .M1
  else if "\t[m2]".data.isPrefixOf s then .M2
  else if hasInfix "[com]".data s then .Comment
  else .Invalid

/-- `can_follow` from `main.rs`: the line-role transition predicate. -/
def can_follow (prev curr : DState) : Bool :=
  match prev with
  | .Begin => curr = .Name
  | .Name => curr = .Index
  | .Index => curr = .Lang
  | .Lang => curr = .EmptyLine
  | .EmptyLine => curr = .Key || curr = .EmptyLine
  | .Key => curr = .Comment || curr = .Text || curr = .M1 || curr = .RomanNumber
  | .Comment => curr = .Text || curr = .M1 || curr = .Comment || curr = .RomanNumber || curr = .Key
  | .Text => curr = .Comment || curr = .Key || curr = .M1 || curr = .M2 || curr = .Text || curr = .RomanNumber
  | .M1 => curr = .Comment || curr = .Key || curr = .M1 || curr = .M2 || curr = .RomanNumber || curr = .Text
  | .M2 => curr = .Comment || curr = .Key || curr = .M1 || curr = .M2 || curr = .RomanNumber || curr = .Text
  | .RomanNumber => curr = .Comment || curr = .M1 || curr = .Text
  | _ => false

/-- The transition table exactly as the specification lists it, as a set of
(previous role, next role) pairs.  Spec names map to source names as
NameHeader = Name, IndexLanguageHeader = Index, ContentsLanguageHeader = Lang,
BlankLine = EmptyLine, Headword = Key, CommentLine = Comment, PlainText = Text,
MarkerOne = M1, MarkerTwo = M2, SenseNumber = RomanNumber. -/
def specTransitions : List (DState × DState) :=
  [(.Begin, .Name),
   (.Name, .Index),
   (.Index, .Lang),
   (.Lang, .EmptyLine),
   (.EmptyLine, .Key), (.EmptyLine, .EmptyLine),
   (.Key, .Comment), (.Key, .Text), (.Key, .M1), (.Key, .RomanNumber),
   (.Comment, .Text), (.Comment, .M1), (.Comment, .Comment), (.Comment, .RomanNumber), (.Comment, .Key),
   (.Text, .Comment), (.Text, .Key), (.Text, .M1), (.Text, .M2), (.Text, .Text), (.Text, .RomanNumber),
   (.M1, .Comment), (.M1, .Key), (.M1, .M1), (.M1, .M2), (.M1, .RomanNumber), (.M1, .Text),
   (.M2, .Comment), (.M2, .Key), (.M2, .M1), (.M2, .M2), (.M2, .RomanNumber), (.M2, .Text),
   (.RomanNumber, .Comment), (.RomanNumber, .M1), (.RomanNumber, .Text)]

/-- Claim C1: the Line Sequence Validator accepts a transition (prev, curr)
if and only if the pair is listed in the specification's transition table;
every pair not listed there, including every pair whose source role is not
listed, is rejected. -/
theorem c1_can_follow_iff_spec_table :
    ∀ p c : DState, can_follow p c = true ↔ (p, c) ∈ specTransitions := by
  decide

/-- The fixed tag vocabulary exactly as the specification lists it:
each entry maps one literal spelling to its open or close kind. -/
def tagVocabulary : List (List Char × DState) :=
  [("[com]".data, .Comment), ("[/com]".data, .ComClose),
   ("[m1]".data, .M1), ("[m2]".data, .M2), ("[/m]".data, .MClose),
   ("[p]".data, .P), ("[/p]".data, .PClose),
   ("[i]".data, .I), ("[/i]".data, .IClose),
   ("[ex]".data, .Ex), ("[/ex]".data, .ExClose),
   ("[c]".data, .C), ("[/c]".data, .CClose),
   ("[b]".data, .B), ("[/b]".data, .BClose),
   ("[/lang]".data, .LangIDClose)]

/-- Look a token up by exact literal match in a vocabulary; `Invalid`
(the source's name for the spec's Unknown) when absent. -/
def vocabFind (s : List Char) : List (List Char × DState) → DState
  | [] => .Invalid
  | e :: es => if s = e.1 then e.2 else vocabFind s es

/-- The Tag Classifier contract as the specification words it: a token
starting with the literal prefix of an attributed language span is a
LanguageSpan regardless of the attribute value; otherwise the token's kind
is found by exact literal match in the fixed vocabulary, and Unknown
(`Invalid`) when it matches no entry. -/
def specTagType (s : List Char) : DState :=
  if "[lang id=".data.isPrefixOf s then .LangID
  else vocabFind s tagVocabulary

/-- Claim C4: the Tag Classifier returns LanguageSpan for every token with
the `[lang id=` prefix regardless of the attribute value, returns the
corresponding open/close kind for every exact literal match with the fixed
16-entry vocabulary, and returns Unknown for every other token. -/
theorem c4_tag_type_eq_spec : ∀ s : List Char, tag_type s = specTagType s := by
  intro s
  simp only [tag_type, specTagType, tagVocabulary, vocabFind]

/-- The ten roman-numeral spellings the classifier recognizes as sense
numbers. -/
def romanLiterals : List (List Char) :=
  ["I".data, "II".data, "III".data, "IV".data, "V".data,
   "VI".data, "VII".data, "VIII".data, "IX".data, "X".data]

/-- The Line Classifier contract as the specification words it: the
8-rule priority cascade.  Rule 1: empty line.  Rule 2: reserved header
prefixes.  Rule 3: no leading tab means a headword.  Rule 4: a tab followed
by exactly one roman numeral I..X (after trimming) is a sense number.
Rule 5: a tab-prefixed line not starting with `[` after the tab is plain
text.  Rule 6: `[m1]`/`[m2]` right after the tab.  Rule 7: the comment-open
token anywhere in the line.  Rule 8: anything else tab-prefixed and
bracketed is Unrecognized (`Invalid`). -/
def specLineType (s : List Char) : DState :=
  if s = [] then .EmptyLine
  else if "#NAME ".data.isPrefixOf s then .Name
  else if "#INDEX_LANGUAGE ".data.isPrefixOf s then .Index
  else if "#CONTENTS_LANGUAGE ".data.isPrefixOf s then .Lang
  else if ¬ ['\t'].isPrefixOf s then .Key
  else if trim s ∈ romanLiterals then .RomanNumber
  else if ¬ "\t[".data.isPrefixOf s then .Text
  else if "\t[m1]".data.isPrefixOf s then .M1
  else if "\t[m2]".data.isPrefixOf s then .M2
  else if hasInfix "[com]".data s then .Comment
  else .Invalid

/-- Claim C3: the Line Classifier assigns every physical line the role
given by the specification's 8-rule priority cascade, earlier rules taking
priority; the role depends only on the line's prefix/content shape tested
by the rules. -/
theorem c3_line_type_eq_spec : ∀ s : List Char, line_type s = specLineType s := by
  intro s
  simp only [line_type, specLineType, romanLiterals, List.mem_cons,
    List.not_mem_nil, or_false]

/-- The diagnostics `parse_line` can return; each constructor models one
`format!` of the source and carries exactly the data that message
interpolates. -/
inductive ParseErr where
  | openBracketInsideTag (tag : List Char)
  | orphanClosingBracket
  | unknownTag (tag : List Char)
  | superfluousClosingTag (tag : List Char)
  | mismatchedClosing (opening closing : DState)
  | unfinishedTag (tag : List Char)
  | unclosedTags (stack : List DState)
deriving DecidableEq, Repr

/-- The scanner state `parse_line` threads through its character loop:
`in_sq` (inside a bracket token), the token text accumulated so far, the
stack of open tags, and the previous character. -/
structure PSt where
  in_sq : Bool
  tag : List Char
  stack : List DState
  last_c : Char
deriving DecidableEq, Repr

/-- The structural-match check of `parse_line`: which closing kind pops
which open kind (`[/m]` closes both markers). -/
def tagMatches (tp opening : DState) : Bool :=
  match tp, opening with
  | .MClose, .M1 => true
  | .MClose, .M2 => true
  | .IClose, .I => true
  | .ComClose, .Comment => true
  | .PClose, .P => true
  | .CClose, .C => true
  | .BClose, .B => true
  | .ExClose, .Ex => true
  | .LangIDClose, .LangID => true
  | _, _ => false

/-- One iteration of `parse_line`'s character loop, translated branch by
branch from the source (including the branches that leave `last_c`
untouched because the Rust code `continue`s before updating it, and the
branch that pushes an opening tag while leaving the token accumulator
unreset). -/
def pstep (st : PSt) (c : Char) : Except ParseErr PSt :=
  if c = '[' then
    if st.last_c = '\\' then .ok { st with last_c := c }
    else if st.in_sq then .error (.openBracketInsideTag st.tag)
    else .ok { st with tag := ['['], in_sq := true, last_c := c }
  else if c = ']' then
    if st.last_c = '\\' then
      if st.in_sq then .ok { st with tag := st.tag ++ [c], last_c := c }
      else .ok { st with last_c := c }
    else if ¬ st.in_sq then .error .orphanClosingBracket
    else if tag_type (st.tag ++ [c]) = .Invalid then .error (.unknownTag (st.tag ++ [c]))
    else if ¬ "[/".data.isPrefixOf (st.tag ++ [c]) then
      .ok { st with tag := st.tag ++ [c], in_sq := false, stack := tag_type (st.tag ++ [c]) :: st.stack, last_c := c }
    else
      match st.stack with
      | [] => .error (.superfluousClosingTag (st.tag ++ [c]))
      | opening :: rest =>
        if tagMatches (tag_type (st.tag ++ [c])) opening then
          .ok { st with tag := [], in_sq := false, stack := rest, last_c := c }
        else .error (.mismatchedClosing opening (tag_type (st.tag ++ [c])))
  else
    if st.in_sq then .ok { st with tag := st.tag ++ [c], last_c := c }
    else .ok { st with last_c := c }

/-- Run the scanner loop over a list of characters. -/
def prun (st : PSt) : List Char → Except ParseErr PSt
  | [] => .ok st
  | c :: cs =>
    match pstep st c with
    | .error e => .error e
    | .ok st' => prun st' cs

/-- The scanner's initial state (`in_sq = false`, empty token, empty stack,
`last_c = ' '`). -/
def initPSt : PSt := ⟨false, [], [], ' '⟩

/-- `parse_line` from `main.rs`: trim the line, scan it, and apply the
end-of-line checks; `none` models the empty success string. -/
def parse_line (s : List Char) : Option ParseErr :=
  match prun initPSt (trim s) with
  | .error e => some e
  | .ok st =>
    if st.tag ≠ [] then some (.unfinishedTag st.tag)
    else if st.stack ≠ [] then some (.unclosedTags st.stack)
    else none

/-- Claim C2, counterexample: on the line `[b]x` the scan reaches end of
line OUTSIDE any token (`in_sq = false`, the token `[b]` was completed and
its kind pushed) with a non-empty tag stack, so the claim requires the
"unclosed tags" diagnostic; the code instead reports "unfinished tag
'[b]'", because pushing an opening tag does not reset the token
accumulator. -/
theorem c2_counterexample :
    prun initPSt (trim "[b]x".data) =
      .ok ⟨false, "[b]".data, [.B], 'x'⟩ ∧
    parse_line "[b]x".data = some (.unfinishedTag "[b]".data) := by
  constructor
  · rfl
  · rfl

/-- The character loop itself never produces the two end-of-line
diagnostics: those can only come from the checks after the loop. -/
theorem pstep_no_eol_error (st : PSt) (c : Char) :
    ∀ t ts, pstep st c ≠ .error (.unfinishedTag t) ∧
      pstep st c ≠ .error (.unclosedTags ts) := by
  intro t ts
  refine ⟨fun hc => ?_, fun hc => ?_⟩ <;>
  · unfold pstep at hc
    split_ifs at hc
    all_goals repeat' split at hc
    all_goals simp_all

/-- Running the loop never produces the two end-of-line diagnostics. -/
theorem prun_no_eol_error (st : PSt) (cs : List Char) :
    ∀ t ts, prun st cs ≠ .error (.unfinishedTag t) ∧
      prun st cs ≠ .error (.unclosedTags ts) := by
  induction cs generalizing st with
  | nil => intro t ts; simp [prun]
  | cons c cs ih =>
    intro t ts
    unfold prun
    rcases h : pstep st c with e | st'
    · have := pstep_no_eol_error st c t ts
      rw [h] at this
      constructor
      · intro hc
        exact this.1 (by simp_all)
      · intro hc
        exact this.2 (by simp_all)
    · exact ih st' t ts

/-- Claim C2 as amended: at end of line the scanner fails with "unfinished
tag" exactly when the token accumulator is non-empty — which happens both
while still inside an unterminated token and when the last completed
bracket token was an opening tag with no later unescaped `[` — and fails
with "unclosed tags", listing the stack, exactly when the accumulator is
empty and the tag stack is non-empty. -/
theorem c2_end_of_line_diagnostics :
    ∀ s : List Char,
      (∀ t, parse_line s = some (.unfinishedTag t) ↔
        ∃ st : PSt, prun initPSt (trim s) = .ok st ∧ st.tag = t ∧ t ≠ []) ∧
      (∀ ts, parse_line s = some (.unclosedTags ts) ↔
        ∃ st : PSt, prun initPSt (trim s) = .ok st ∧ st.tag = [] ∧
          st.stack = ts ∧ ts ≠ []) := by
  intro s
  unfold parse_line
  rcases h : prun initPSt (trim s) with e | st <;> dsimp only
  · have hne := prun_no_eol_error initPSt (trim s)
    constructor
    · intro t
      constructor
      · intro hc
        simp only [Option.some_inj] at hc
        exact absurd h (hc ▸ (hne t []).1)
      · rintro ⟨st, hst, -⟩
        cases hst
    · intro ts
      constructor
      · intro hc
        simp only [Option.some_inj] at hc
        exact absurd h (hc ▸ (hne [] ts).2)
      · rintro ⟨st, hst, -⟩
        cases hst
  · by_cases htag : st.tag = []
    · by_cases hstk : st.stack = []
      · have hv : (if st.tag ≠ [] then some (ParseErr.unfinishedTag st.tag)
            else if st.stack ≠ [] then some (ParseErr.unclosedTags st.stack)
            else none) = none := by simp [htag, hstk]
        rw [hv]
        constructor
        · intro t
          constructor
          · intro hc; cases hc
          · rintro ⟨st', hst', h1, h2⟩
            cases hst'
            exact absurd (h1 ▸ htag) h2
        · intro ts
          constructor
          · intro hc; cases hc
          · rintro ⟨st', hst', -, h2, h3⟩
            cases hst'
            exact absurd (h2 ▸ hstk) h3
      · have hv : (if st.tag ≠ [] then some (ParseErr.unfinishedTag st.tag)
            else if st.stack ≠ [] then some (ParseErr.unclosedTags st.stack)
            else none) = some (ParseErr.unclosedTags st.stack) := by
          simp [htag, hstk]
        rw [hv]
        constructor
        · intro t
          constructor
          · intro hc; cases hc
          · rintro ⟨st', hst', h1, h2⟩
            cases hst'
            exact absurd (h1 ▸ htag) h2
        · intro ts
          constructor
          · intro hc
            simp only [Option.some_inj, ParseErr.unclosedTags.injEq] at hc
            exact ⟨st, rfl, htag, hc, hc ▸ hstk⟩
          · rintro ⟨st', hst', -, h2, -⟩
            cases hst'
            rw [h2]
    · have hv : (if st.tag ≠ [] then some (ParseErr.unfinishedTag st.tag)
          else if st.stack ≠ [] then some (ParseErr.unclosedTags st.stack)
          else none) = some (ParseErr.unfinishedTag st.tag) := by
        simp [htag]
      rw [hv]
      constructor
      · intro t
        constructor
        · intro hc
          simp only [Option.some_inj, ParseErr.unfinishedTag.injEq] at hc
          exact ⟨st, rfl, hc, hc ▸ htag⟩
        · rintro ⟨st', hst', h1, -⟩
          cases hst'
          rw [h1]
      · intro ts
        constructor
        · intro hc; cases hc
        · rintro ⟨st', hst', h1, -, -⟩
          cases hst'
          exact absurd h1 htag

/-- Characters that take no part in tag structure: not a bracket and not a
backslash. -/
def Clean (b : List Char) : Prop := ∀ c ∈ b, c ≠ '[' ∧ c ≠ ']' ∧ c ≠ '\\'

instance : DecidablePred Clean := fun b =>
  List.decidableBAll (fun c => c ≠ '[' ∧ c ≠ ']' ∧ c ≠ '\\') b

/-- The opening tokens of the known vocabulary with the kind each one
classifies to; `[lang id=...]` carries an arbitrary attribute free of
brackets and backslashes. -/
inductive OpenTok : List Char → DState → Prop where
  | com : OpenTok "[com]".data .Comment
  | m1 : OpenTok "[m1]".data .M1
  | m2 : OpenTok "[m2]".data .M2
  | p : OpenTok "[p]".data .P
  | i : OpenTok "[i]".data .I
  | ex : OpenTok "[ex]".data .Ex
  | c : OpenTok "[c]".data .C
  | b : OpenTok "[b]".data .B
  | lang (a : List Char) : Clean a → OpenTok ("[lang id=".data ++ (a ++ [']'])) .LangID

/-- The closing tokens of the known vocabulary with the kind each one
classifies to. -/
inductive CloseTok : List Char → DState → Prop where
  | m : CloseTok "[/m]".data .MClose
  | i : CloseTok "[/i]".data .IClose
  | com : CloseTok "[/com]".data .ComClose
  | p : CloseTok "[/p]".data .PClose
  | c : CloseTok "[/c]".data .CClose
  | b : CloseTok "[/b]".data .BClose
  | ex : CloseTok "[/ex]".data .ExClose
  | lang : CloseTok "[/lang]".data .LangIDClose

/-- Lines whose bracket tokens are all drawn from the known vocabulary,
balanced, and correctly nested: a sequence of structure-free characters and
of known open/close token pairs matched last-in-first-out, each pair
enclosing such a sequence. -/
inductive Seg : List Char → Prop where
  | nil : Seg []
  | plain (c : Char) (r : List Char) :
      c ≠ '[' → c ≠ ']' → c ≠ '\\' → Seg r → Seg (c :: r)
  | tagged (t b ct r : List Char) (k ck : DState) :
      OpenTok t k → CloseTok ct ck → tagMatches ck k = true →
      Seg b → Seg r → Seg (t ++ (b ++ (ct ++ r)))

/-- Scanning a concatenation runs the two parts in sequence. -/
theorem prun_append (xs ys : List Char) : ∀ st : PSt,
    prun st (xs ++ ys) =
      match prun st xs with
      | .error e => .error e
      | .ok st' => prun st' ys := by
  induction xs with
  | nil => intro st; rfl
  | cons c cs ih =>
    intro st
    simp only [List.cons_append, prun]
    rcases h : pstep st c with e | st'
    · rfl
    · exact ih st'

/-- A structure-free character outside a token only updates `last_c`. -/
theorem pstep_plain_outside (st : PSt) (c : Char) (h1 : c ≠ '[') (h2 : c ≠ ']')
    (hsq : st.in_sq = false) : pstep st c = .ok { st with last_c := c } := by
  unfold pstep
  rw [if_neg h1, if_neg h2, if_neg (by simp [hsq])]

/-- A run of structure-free characters outside a token only moves
`last_c`, to the run's final character when the run is non-empty. -/
theorem prun_plain_outside (b : List Char) : ∀ st : PSt, Clean b →
    st.in_sq = false →
    ∃ e, prun st b = .ok { st with last_c := e } ∧ (e = st.last_c ∨ e ∈ b) := by
  induction b with
  | nil => intro st _ _; exact ⟨st.last_c, rfl, Or.inl rfl⟩
  | cons c cs ih =>
    intro st hb hsq
    obtain ⟨h1, h2, -⟩ := hb c (by simp)
    have hstep := pstep_plain_outside st c h1 h2 hsq
    obtain ⟨e, he, hor⟩ := ih { st with last_c := c }
      (fun x hx => hb x (by simp [hx])) hsq
    refine ⟨e, ?_, ?_⟩
    · unfold prun
      rw [hstep]
      exact he
    · rcases hor with h | h
      · exact Or.inr (by simp_all)
      · exact Or.inr (by simp [h])

/-- A run of structure-free characters inside a token appends them all to
the token accumulator. -/
theorem prun_plain_inside (b : List Char) : ∀ (tg : List Char) (stk : List DState)
    (l : Char), Clean b →
    ∃ e, prun ⟨true, tg, stk, l⟩ b = .ok ⟨true, tg ++ b, stk, e⟩ ∧
      (e = l ∨ e ∈ b) := by
  induction b with
  | nil => intro tg stk l _; exact ⟨l, by simp [prun], Or.inl rfl⟩
  | cons c cs ih =>
    intro tg stk l hb
    obtain ⟨h1, h2, -⟩ := hb c (by simp)
    have hstep : pstep ⟨true, tg, stk, l⟩ c = .ok ⟨true, tg ++ [c], stk, c⟩ := by
      unfold pstep
      rw [if_neg h1, if_neg h2]
      rfl
    obtain ⟨e, he, hor⟩ := ih (tg ++ [c]) stk c (fun x hx => hb x (by simp [hx]))
    refine ⟨e, ?_, ?_⟩
    · unfold prun
      rw [hstep]
      have h2 : tg ++ (c :: cs) = (tg ++ [c]) ++ cs := by simp
      rw [h2]
      exact he
    · rcases hor with h | h
      · exact Or.inr (by simp [h])
      · exact Or.inr (by simp [h])

/-- Scanning a whole bracket token whose classification is known and whose
spelling is not a closer pushes its kind and records the token text. -/
theorem prun_tok_open (body : List Char) (hb : Clean body) (st : PSt)
    (h1 : st.in_sq = false) (h2 : st.last_c ≠ '\\')
    (hkn : tag_type ('[' :: (body ++ [']'])) ≠ .Invalid)
    (hop : "[/".data.isPrefixOf ('[' :: (body ++ [']'])) = false) :
    prun st ('[' :: (body ++ [']'])) =
      .ok ⟨false, '[' :: (body ++ [']']),
           tag_type ('[' :: (body ++ [']'])) :: st.stack, ']'⟩ := by
  have hstep1 : pstep st '[' = .ok ⟨true, ['['], st.stack, '['⟩ := by
    unfold pstep
    rw [if_pos rfl, if_neg h2, if_neg (by simp [h1])]
  obtain ⟨e, he, hor⟩ := prun_plain_inside body ['['] st.stack '[' hb
  have he' : e ≠ '\\' := by
    rcases hor with h | h
    · simp [h]
    · exact (hb e h).2.2
  have hstep2 : pstep ⟨true, ['['] ++ body, st.stack, e⟩ ']' =
      .ok ⟨false, '[' :: (body ++ [']']),
           tag_type ('[' :: (body ++ [']'])) :: st.stack, ']'⟩ := by
    unfold pstep
    rw [if_neg (by decide), if_pos rfl, if_neg he',
      if_neg (by simp), if_neg (by exact hkn), if_pos (by simp [hop])]
    rfl
  have h3 : prun st ('[' :: (body ++ [']'])) =
      prun ⟨true, ['['], st.stack, '['⟩ (body ++ [']']) := by
    conv_lhs => rw [prun]
    rw [hstep1]
  rw [h3, prun_append body [']'], he]
  show prun ⟨true, ['['] ++ body, st.stack, e⟩ [']'] = _
  conv_lhs => rw [prun]
  rw [hstep2]
  rfl

/-- Scanning a whole closing token whose classification structurally
matches the top of the stack pops the stack and clears the accumulator. -/
theorem prun_tok_close (body : List Char) (hb : Clean body) (tg : List Char)
    (k : DState) (rest : List DState) (l : Char) (h2 : l ≠ '\\')
    (hkn : tag_type ('[' :: (body ++ [']'])) ≠ .Invalid)
    (hcl : "[/".data.isPrefixOf ('[' :: (body ++ [']'])) = true)
    (hm : tagMatches (tag_type ('[' :: (body ++ [']']))) k = true) :
    prun ⟨false, tg, k :: rest, l⟩ ('[' :: (body ++ [']'])) =
      .ok ⟨false, [], rest, ']'⟩ := by
  have hstep1 : pstep ⟨false, tg, k :: rest, l⟩ '[' =
      .ok ⟨true, ['['], k :: rest, '['⟩ := by
    unfold pstep
    rw [if_pos rfl, if_neg h2, if_neg (by simp)]
  obtain ⟨e, he, hor⟩ := prun_plain_inside body ['['] (k :: rest) '[' hb
  have he' : e ≠ '\\' := by
    rcases hor with h | h
    · simp [h]
    · exact (hb e h).2.2
  have hstep2 : pstep ⟨true, ['['] ++ body, k :: rest, e⟩ ']' =
      .ok ⟨false, [], rest, ']'⟩ := by
    unfold pstep
    rw [if_neg (by decide), if_pos rfl, if_neg he',
      if_neg (by simp), if_neg (by exact hkn), if_neg (by simp [hcl])]
    dsimp only
    simp only [List.append_assoc, List.singleton_append, List.cons_append,
      List.nil_append]
    rw [if_pos hm]
  have h3 : prun ⟨false, tg, k :: rest, l⟩ ('[' :: (body ++ [']'])) =
      prun ⟨true, ['['], k :: rest, '['⟩ (body ++ [']']) := by
    conv_lhs => rw [prun]
    rw [hstep1]
  rw [h3, prun_append body [']'], he]
  show prun ⟨true, ['['] ++ body, k :: rest, e⟩ [']'] = _
  conv_lhs => rw [prun]
  rw [hstep2]
  rfl

/-- Scanning any known opening token from outside a token pushes its kind. -/
theorem prun_openTok {t : List Char} {k : DState} (ht : OpenTok t k)
    (st : PSt) (h1 : st.in_sq = false) (h2 : st.last_c ≠ '\\') :
    prun st t = .ok ⟨false, t, k :: st.stack, ']'⟩ := by
  cases ht with
  | com => exact prun_tok_open ['c', 'o', 'm'] (by decide) st h1 h2 (by decide) (by decide)
  | m1 => exact prun_tok_open ['m', '1'] (by decide) st h1 h2 (by decide) (by decide)
  | m2 => exact prun_tok_open ['m', '2'] (by decide) st h1 h2 (by decide) (by decide)
  | p => exact prun_tok_open ['p'] (by decide) st h1 h2 (by decide) (by decide)
  | i => exact prun_tok_open ['i'] (by decide) st h1 h2 (by decide) (by decide)
  | ex => exact prun_tok_open ['e', 'x'] (by decide) st h1 h2 (by decide) (by decide)
  | c => exact prun_tok_open ['c'] (by decide) st h1 h2 (by decide) (by decide)
  | b => exact prun_tok_open ['b'] (by decide) st h1 h2 (by decide) (by decide)
  | lang a ha =>
    have hclean : Clean (['l', 'a', 'n', 'g', ' ', 'i', 'd', '='] ++ a) := by
      intro x hx
      rcases List.mem_append.mp hx with h | h
      · fin_cases h <;> exact ⟨by decide, by decide, by decide⟩
      · exact ha x h
    have heq : ("[lang id=".data ++ (a ++ [']'])) =
        '[' :: ((['l', 'a', 'n', 'g', ' ', 'i', 'd', '='] ++ a) ++ [']']) := by
      simp
    have hpre : "[lang id=".data.isPrefixOf
        ('[' :: ((['l', 'a', 'n', 'g', ' ', 'i', 'd', '='] ++ a) ++ [']'])) = true := by
      rw [← heq]
      exact List.isPrefixOf_iff_prefix.mpr (List.prefix_append _ _)
    have htt : tag_type
        ('[' :: ((['l', 'a', 'n', 'g', ' ', 'i', 'd', '='] ++ a) ++ [']'])) = .LangID := by
      unfold tag_type
      rw [if_pos hpre]
    rw [heq]
    have := prun_tok_open (['l', 'a', 'n', 'g', ' ', 'i', 'd', '='] ++ a) hclean st h1 h2
      (by rw [htt]; decide) (by simp [List.isPrefixOf])
    rw [htt] at this
    exact this

/-- Scanning any known closing token whose kind matches the top of the
stack pops the stack. -/
theorem prun_closeTok {ct : List Char} {ck : DState} (hct : CloseTok ct ck)
    (tg : List Char) (k : DState) (rest : List DState) (l : Char)
    (h2 : l ≠ '\\') (hm : tagMatches ck k = true) :
    prun ⟨false, tg, k :: rest, l⟩ ct = .ok ⟨false, [], rest, ']'⟩ := by
  cases hct with
  | m => exact prun_tok_close ['/', 'm'] (by decide) tg k rest l h2 (by decide) (by decide) hm
  | i => exact prun_tok_close ['/', 'i'] (by decide) tg k rest l h2 (by decide) (by decide) hm
  | com => exact prun_tok_close ['/', 'c', 'o', 'm'] (by decide) tg k rest l h2 (by decide) (by decide) hm
  | p => exact prun_tok_close ['/', 'p'] (by decide) tg k rest l h2 (by decide) (by decide) hm
  | c => exact prun_tok_close ['/', 'c'] (by decide) tg k rest l h2 (by decide) (by decide) hm
  | b => exact prun_tok_close ['/', 'b'] (by decide) tg k rest l h2 (by decide) (by decide) hm
  | ex => exact prun_tok_close ['/', 'e', 'x'] (by decide) tg k rest l h2 (by decide) (by decide) hm
  | lang => exact prun_tok_close ['/', 'l', 'a', 'n', 'g'] (by decide) tg k rest l h2 (by decide) (by decide) hm

/-- Scanning a balanced, correctly nested segment of known tags succeeds,
preserves the stack, ends outside any token with a non-backslash previous
character, and leaves the accumulator either untouched or cleared. -/
theorem prun_Seg {s : List Char} (hs : Seg s) : ∀ st : PSt,
    st.in_sq = false → st.last_c ≠ '\\' →
    ∃ tg e, prun st s = .ok ⟨false, tg, st.stack, e⟩ ∧ e ≠ '\\' ∧
      (tg = st.tag ∨ tg = []) := by
  induction hs with
  | nil =>
    intro st h1 h2
    refine ⟨st.tag, st.last_c, ?_, h2, Or.inl rfl⟩
    cases st
    simp_all [prun]
  | plain c r hc1 hc2 hc3 _ ih =>
    intro st h1 h2
    obtain ⟨tg, e, heq, he, hd⟩ := ih { st with last_c := c } h1 hc3
    refine ⟨tg, e, ?_, he, hd⟩
    unfold prun
    rw [pstep_plain_outside st c hc1 hc2 h1]
    exact heq
  | tagged t b ct r k ck hot hct hm _ _ ihb ihr =>
    intro st h1 h2
    have hopen := prun_openTok hot st h1 h2
    obtain ⟨tgb, eb, heqb, heb, -⟩ :=
      ihb (⟨false, t, k :: st.stack, ']'⟩ : PSt) rfl (show (']' : Char) ≠ '\\' by decide)
    have hclose := prun_closeTok hct tgb k st.stack eb heb hm
    obtain ⟨tgr, er, heqr, her, hdr⟩ :=
      ihr (⟨false, [], st.stack, ']'⟩ : PSt) rfl (show (']' : Char) ≠ '\\' by decide)
    have htgr : tgr = [] := by
      rcases hdr with h | h <;> simpa using h
    refine ⟨tgr, er, ?_, her, Or.inr htgr⟩
    have e1 : prun st (t ++ (b ++ (ct ++ r))) =
        prun ⟨false, t, k :: st.stack, ']'⟩ (b ++ (ct ++ r)) := by
      rw [prun_append, hopen]
    have e2 : prun (⟨false, t, k :: st.stack, ']'⟩ : PSt) (b ++ (ct ++ r)) =
        prun ⟨false, tgb, k :: st.stack, eb⟩ (ct ++ r) := by
      rw [prun_append, heqb]
    have e3 : prun (⟨false, tgb, k :: st.stack, eb⟩ : PSt) (ct ++ r) =
        prun ⟨false, [], st.stack, ']'⟩ r := by
      rw [prun_append, hclose]
    rw [e1, e2, e3, heqr]

/-- Claim C5: for every line whose bracket tokens are all drawn from the
known tag vocabulary, balanced (no unterminated token, no orphan closing
bracket) and correctly nested (each opening tag closed by a structurally
matching closer, last-in-first-out), the Inline Tag Scanner returns no
diagnostic. -/
theorem c5_balanced_known_lines_scan_clean (s : List Char)
    (hs : Seg (trim s)) : parse_line s = none := by
  obtain ⟨tg, e, heq, -, hd⟩ := prun_Seg hs initPSt rfl (by decide)
  have htg : tg = [] := by
    rcases hd with h | h
    · simpa [initPSt] using h
    · exact h
  unfold parse_line
  rw [heq, htg]
  simp [initPSt]

/-- All structure-free character lists are segments. -/
theorem Seg_of_clean (l : List Char) (hl : Clean l) : Seg l := by
  induction l with
  | nil => exact Seg.nil
  | cons c cs ih =>
    obtain ⟨h1, h2, h3⟩ := hl c (by simp)
    exact Seg.plain c cs h1 h2 h3 (ih (fun x hx => hl x (by simp [hx])))

/-- Witness for C5: the line `\t[b]bold[/b]` is balanced, nested and known,
and the scanner accepts it. -/
theorem c5_witness : parse_line "\t[b]bold[/b]".data = none :=
  c5_balanced_known_lines_scan_clean "\t[b]bold[/b]".data
    (Seg.tagged "[b]".data "bold".data "[/b]".data [] .B .BClose
      OpenTok.b CloseTok.b rfl (Seg_of_clean "bold".data (by decide)) Seg.nil)

/-- Rust `str::trim_end_matches(']')` as `fix_up_line` uses it: drop every
trailing `]`. -/
def trimEndBr (t : List Char) : List Char :=
  (t.reverse.dropWhile (fun c => c = ']')).reverse

/-- The character loop of `fix_up_line` from `main.rs`, written so that the
function returns the output still to be produced.  Every branch is
translated from the source, including: an escaped `[` is pushed to the
output even while inside a token (and the accumulator keeps growing); a
second unescaped `[` inside a token silently restarts the accumulator; an
unescaped `]` outside a token is emitted as `\]` without updating the
previous-character state (the Rust loop `continue`s); an unknown completed
token is re-emitted with its trailing `]`s stripped, wrapped as
`\...\]`; and a trailing unterminated token is emitted verbatim. -/
def fixGo : Bool → List Char → Char → List Char → List Char
  | _, tag, _, [] => tag
  | in_sq, tag, last, c :: cs =>
    if c = '[' then
      if last = '\\' then c :: fixGo in_sq tag c cs
      else fixGo true ['['] c cs
    else if c = ']' then
      if last = '\\' then
        if in_sq then fixGo in_sq (tag ++ [c]) c cs
        else c :: fixGo in_sq tag c cs
      else if ¬ in_sq then '\\' :: c :: fixGo in_sq tag last cs
      else if tag_type (tag ++ [c]) = .Invalid then
        ('\\' :: trimEndBr (tag ++ [c])) ++ ('\\' :: ']' :: fixGo false [] c cs)
      else (tag ++ [c]) ++ fixGo false [] c cs
    else if in_sq then fixGo in_sq (tag ++ [c]) c cs
    else c :: fixGo in_sq tag c cs

/-- `fix_up_line` from `main.rs`: run the loop from the initial state. -/
def fix_up_line (s : List Char) : List Char := fixGo false [] ' ' s

/-- The per-line step of `fix_invalid_tags` from `main.rs`: lines without
a `[` pass through unchanged, all others are rewritten by `fix_up_line`. -/
def fixPass (l : List Char) : List Char :=
  if '[' ∈ l then fix_up_line l else l

/-- Claim C6, counterexample: the Repair Engine is not idempotent.  On the
line `[\[]` the first pass yields `[\[\\]` but the second pass yields
`[[\\\]`, because an escaped `[` inside a token is pushed straight to the
output while the token accumulator keeps collecting, so the rewritten text
re-parses differently. -/
theorem c6_counterexample :
    fixPass (fixPass "[\\[]".data) ≠ fixPass "[\\[]".data := by
  decide

theorem fix_nil (sq : Bool) (tag : List Char) (l : Char) :
    fixGo sq tag l [] = tag := rfl

theorem fix_open (sq : Bool) (tag : List Char) (l : Char) (cs : List Char)
    (hl : l ≠ '\\') : fixGo sq tag l ('[' :: cs) = fixGo true ['['] '[' cs := by
  conv_lhs => rw [fixGo]
  rw [if_pos rfl, if_neg hl]

theorem fix_escOpen (sq : Bool) (tag : List Char) (cs : List Char) :
    fixGo sq tag '\\' ('[' :: cs) = '[' :: fixGo sq tag '[' cs := by
  conv_lhs => rw [fixGo]
  rw [if_pos rfl, if_pos rfl]

theorem fix_stray_out (tag : List Char) (l : Char) (cs : List Char)
    (hl : l ≠ '\\') :
    fixGo false tag l (']' :: cs) = '\\' :: ']' :: fixGo false tag l cs := by
  conv_lhs => rw [fixGo]
  rw [if_neg (by decide), if_pos rfl, if_neg hl, if_pos (by simp)]

theorem fix_escBr_out (tag : List Char) (cs : List Char) :
    fixGo false tag '\\' (']' :: cs) = ']' :: fixGo false tag ']' cs := by
  conv_lhs => rw [fixGo]
  rw [if_neg (by decide), if_pos rfl, if_pos rfl, if_neg (by simp)]

theorem fix_escBr_in (tag : List Char) (cs : List Char) :
    fixGo true tag '\\' (']' :: cs) = fixGo true (tag ++ [']']) ']' cs := by
  conv_lhs => rw [fixGo]
  rw [if_neg (by decide), if_pos rfl, if_pos rfl, if_pos rfl]

theorem fix_close (tag : List Char) (l : Char) (cs : List Char) (hl : l ≠ '\\') :
    fixGo true tag l (']' :: cs) =
      if tag_type (tag ++ [']']) = .Invalid then
        ('\\' :: trimEndBr (tag ++ [']'])) ++ ('\\' :: ']' :: fixGo false [] ']' cs)
      else (tag ++ [']']) ++ fixGo false [] ']' cs := by
  conv_lhs => rw [fixGo]
  rw [if_neg (by decide), if_pos rfl, if_neg hl, if_neg (by simp)]

theorem fix_plain_out (tag : List Char) (l c : Char) (cs : List Char)
    (h1 : c ≠ '[') (h2 : c ≠ ']') :
    fixGo false tag l (c :: cs) = c :: fixGo false tag c cs := by
  conv_lhs => rw [fixGo]
  rw [if_neg h1, if_neg h2, if_neg (by simp)]

theorem fix_plain_in (tag : List Char) (l c : Char) (cs : List Char)
    (h1 : c ≠ '[') (h2 : c ≠ ']') :
    fixGo true tag l (c :: cs) = fixGo true (tag ++ [c]) c cs := by
  conv_lhs => rw [fixGo]
  rw [if_neg h1, if_neg h2, if_pos rfl]

/-- A run of structure-free characters outside a token is copied verbatim. -/
theorem fixRun_plain_out (b : List Char) (hb : Clean b) (rest : List Char) :
    ∀ (tag : List Char) (l : Char),
    ∃ e, fixGo false tag l (b ++ rest) = b ++ fixGo false tag e rest ∧
      (e = l ∨ e ∈ b) := by
  induction b with
  | nil => intro tag l; exact ⟨l, rfl, Or.inl rfl⟩
  | cons c cs ih =>
    intro tag l
    obtain ⟨h1, h2, -⟩ := hb c (by simp)
    obtain ⟨e, he, hor⟩ := ih (fun x hx => hb x (by simp [hx])) tag c
    refine ⟨e, ?_, ?_⟩
    · rw [List.cons_append, fix_plain_out tag l c _ h1 h2, he]
      simp
    · rcases hor with h | h
      · exact Or.inr (by simp [h])
      · exact Or.inr (by simp [h])

/-- A run of structure-free characters inside a token is appended to the
accumulator and produces no output. -/
theorem fixRun_plain_in (b : List Char) (hb : Clean b) (rest : List Char) :
    ∀ (tag : List Char) (l : Char),
    ∃ e, fixGo true tag l (b ++ rest) = fixGo true (tag ++ b) e rest ∧
      (e = l ∨ e ∈ b) := by
  induction b with
  | nil => intro tag l; exact ⟨l, by simp, Or.inl rfl⟩
  | cons c cs ih =>
    intro tag l
    obtain ⟨h1, h2, -⟩ := hb c (by simp)
    obtain ⟨e, he, hor⟩ := ih (fun x hx => hb x (by simp [hx])) (tag ++ [c]) c
    refine ⟨e, ?_, ?_⟩
    · rw [List.cons_append, fix_plain_in tag l c _ h1 h2, he]
      simp
    · rcases hor with h | h
      · exact Or.inr (by simp [h])
      · exact Or.inr (by simp [h])

theorem dropWhile_of_forall {p : Char → Bool} (xs : List Char)
    (h : ∀ x ∈ xs, p x = false) : xs.dropWhile p = xs := by
  cases xs with
  | nil => rfl
  | cons x xs => simp [List.dropWhile, h x (by simp)]

/-- Stripping trailing `]`s from a completed token whose body is free of
`]` removes exactly the final `]`. -/
theorem trimEndBr_clean (b : List Char) (hb : ∀ x ∈ b, x ≠ ']') :
    trimEndBr (('[' :: b) ++ [']']) = '[' :: b := by
  unfold trimEndBr
  have h1 : (('[' :: b) ++ [']']).reverse = ']' :: ('[' :: b).reverse := by
    simp
  rw [h1, List.dropWhile_cons_of_pos (by simp)]
  have hside : ∀ x ∈ ('[' :: b).reverse, (fun c => decide (c = ']')) x = false := by
    intro x hx
    have hx' : x = '[' ∨ x ∈ b := by simpa using List.mem_reverse.mp hx
    rcases hx' with h | h
    · subst h
      decide
    · exact decide_eq_false (hb x h)
  rw [dropWhile_of_forall _ hside, List.reverse_reverse]

/-- The shape of every output the Repair Engine produces from a
backslash-free input: plain characters, escaped stray closing brackets,
escaped unknown tokens, recognized tokens re-emitted verbatim, and a
possible trailing unterminated token — and nothing else. -/
inductive SOut : List Char → Prop where
  | nil : SOut []
  | plain (c : Char) (r : List Char) :
      c ≠ '[' → c ≠ ']' → c ≠ '\\' → SOut r → SOut (c :: r)
  | escBr (r : List Char) : SOut r → SOut ('\\' :: ']' :: r)
  | escUnk (b r : List Char) : Clean b → SOut r →
      SOut ('\\' :: '[' :: (b ++ ('\\' :: ']' :: r)))
  | known (b r : List Char) : Clean b →
      tag_type ('[' :: (b ++ [']'])) ≠ .Invalid → SOut r →
      SOut ('[' :: (b ++ (']' :: r)))
  | trailing (b : List Char) : Clean b → SOut ('[' :: b)

/-- Re-scanning any output of the shape `SOut` reproduces it unchanged. -/
theorem SOut_fixed {o : List Char} (ho : SOut o) : ∀ l, l ≠ '\\' →
    fixGo false [] l o = o := by
  induction ho with
  | nil => intro l hl; rfl
  | plain c r h1 h2 h3 _ ih =>
    intro l hl
    rw [fix_plain_out [] l c r h1 h2, ih c h3]
  | escBr r _ ih =>
    intro l hl
    rw [fix_plain_out [] l '\\' _ (by decide) (by decide), fix_escBr_out,
      ih ']' (by decide)]
  | escUnk b r hb _ ih =>
    intro l hl
    rw [fix_plain_out [] l '\\' _ (by decide) (by decide), fix_escOpen]
    obtain ⟨e, he, hor⟩ := fixRun_plain_out b hb ('\\' :: ']' :: r) [] '['
    have he' : e ≠ '\\' := by
      rcases hor with h | h
      · simp [h]
      · exact (hb e h).2.2
    rw [he, fix_plain_out [] e '\\' _ (by decide) (by decide), fix_escBr_out,
      ih ']' (by decide)]
  | known b r hb hkn _ ih =>
    intro l hl
    rw [fix_open false [] l _ hl]
    obtain ⟨e, he, hor⟩ := fixRun_plain_in b hb (']' :: r) ['['] '['
    have he' : e ≠ '\\' := by
      rcases hor with h | h
      · simp [h]
      · exact (hb e h).2.2
    rw [he, fix_close (['['] ++ b) e r he']
    rw [if_neg (by simpa using hkn), ih ']' (by decide)]
    simp
  | trailing b hb =>
    intro l hl
    rw [fix_open false [] l _ hl]
    obtain ⟨e, he, -⟩ := fixRun_plain_in b hb [] ['['] '['
    rw [List.append_nil] at he
    rw [he, fix_nil]
    simp

/-- From a backslash-free input, the Repair Engine emits only output of
the shape `SOut` — from outside a token, and likewise from inside a token
whose accumulator is bracket- and backslash-free so far. -/
theorem fixGo_SOut (cs : List Char) (h : '\\' ∉ cs) :
    (∀ l, l ≠ '\\' → SOut (fixGo false [] l cs)) ∧
    (∀ l b, l ≠ '\\' → Clean b → SOut (fixGo true ('[' :: b) l cs)) := by
  induction cs with
  | nil =>
    exact ⟨fun l hl => SOut.nil, fun l b hl hb => SOut.trailing b hb⟩
  | cons c cs ih =>
    have hc : c ≠ '\\' := fun hcc => h (hcc ▸ List.mem_cons_self c cs)
    have h' : '\\' ∉ cs := fun hx => h (List.mem_cons_of_mem c hx)
    obtain ⟨ih1, ih2⟩ := ih h'
    constructor
    · intro l hl
      by_cases h1 : c = '['
      · subst h1
        rw [fix_open false [] l cs hl]
        exact ih2 '[' [] (by decide) (fun x hx => absurd hx (List.not_mem_nil x))
      · by_cases h2 : c = ']'
        · subst h2
          rw [fix_stray_out [] l cs hl]
          exact SOut.escBr _ (ih1 l hl)
        · rw [fix_plain_out [] l c cs h1 h2]
          exact SOut.plain c _ h1 h2 hc (ih1 c hc)
    · intro l b hl hb
      by_cases h1 : c = '['
      · subst h1
        rw [fix_open true ('[' :: b) l cs hl]
        exact ih2 '[' [] (by decide) (fun x hx => absurd hx (List.not_mem_nil x))
      · by_cases h2 : c = ']'
        · subst h2
          rw [fix_close ('[' :: b) l cs hl]
          by_cases hkn : tag_type (('[' :: b) ++ [']']) = .Invalid
          · rw [if_pos hkn, trimEndBr_clean b (fun x hx => (hb x hx).2.1)]
            have := SOut.escUnk b _ hb (ih1 ']' (by decide))
            simpa using this
          · rw [if_neg hkn]
            have hkn' : tag_type ('[' :: (b ++ [']'])) ≠ .Invalid := by
              simpa using hkn
            have := SOut.known b _ hb hkn' (ih1 ']' (by decide))
            simpa using this
        · rw [fix_plain_in ('[' :: b) l c cs h1 h2]
          have hsh : ('[' :: b) ++ [c] = '[' :: (b ++ [c]) := by simp
          rw [hsh]
          refine ih2 c (b ++ [c]) hc ?_
          intro x hx
          rcases List.mem_append.mp hx with hx | hx
          · exact hb x hx
          · simp only [List.mem_singleton] at hx
            subst hx
            exact ⟨h1, h2, hc⟩

/-- Claim C6 as amended: the Repair Engine's line-rewrite pass is
idempotent on every line containing no backslash character (the
counterexample `[\[]` shows a backslash-escaped `[` inside a token breaks
idempotence); for such lines the escaping of unknown bracket tokens never
introduces text that a second pass would rewrite again. -/
theorem c6_repair_idempotent_backslash_free (l : List Char)
    (h : '\\' ∉ l) : fixPass (fixPass l) = fixPass l := by
  by_cases hb : '[' ∈ l
  · have h1 : fixPass l = fix_up_line l := by
      unfold fixPass
      rw [if_pos hb]
    have hS : SOut (fix_up_line l) := (fixGo_SOut l h).1 ' ' (by decide)
    have h2 : fix_up_line (fix_up_line l) = fix_up_line l :=
      SOut_fixed hS ' ' (by decide)
    rw [h1]
    unfold fixPass
    by_cases hb2 : '[' ∈ fix_up_line l
    · rw [if_pos hb2]
      exact h2
    · rw [if_neg hb2]
  · have h1 : fixPass l = l := by
      unfold fixPass
      rw [if_neg hb]
    rw [h1, h1]

/-- Witness for C6: the pass is idempotent on the backslash-free line
`a[xyz]b`. -/
theorem c6_witness : fixPass (fixPass "a[xyz]b".data) = fixPass "a[xyz]b".data :=
  c6_repair_idempotent_backslash_free "a[xyz]b".data (by decide)

/-- Lines containing only recognized tags: sequences of structure-free
characters and bracket tokens each of which the Tag Classifier maps to a
known open or close kind (attributed language spans included, since the
classification hypothesis is on `tag_type` itself). -/
inductive RecLine : List Char → Prop where
  | nil : RecLine []
  | plain (c : Char) (r : List Char) :
      c ≠ '[' → c ≠ ']' → c ≠ '\\' → RecLine r → RecLine (c :: r)
  | tok (b r : List Char) : Clean b →
      tag_type ('[' :: (b ++ [']'])) ≠ .Invalid → RecLine r →
      RecLine ('[' :: (b ++ (']' :: r)))

/-- Every line of recognized tags is already in output shape. -/
theorem RecLine_SOut {l : List Char} (h : RecLine l) : SOut l := by
  induction h with
  | nil => exact SOut.nil
  | plain c r h1 h2 h3 _ ih => exact SOut.plain c r h1 h2 h3 ih
  | tok b r hb hkn _ ih => exact SOut.known b r hb hkn ih

/-- Claim C7: for every line containing only recognized tags (every
bracket token classifies to a known open or close kind, including
attributed language spans), the Repair Engine's output equals the input
line exactly, character for character. -/
theorem c7_roundtrip_recognized (l : List Char) (h : RecLine l) :
    fixPass l = l := by
  unfold fixPass
  by_cases hb : '[' ∈ l
  · rw [if_pos hb]
    exact SOut_fixed (RecLine_SOut h) ' ' (by decide)
  · rw [if_neg hb]

/-- A run of structure-free characters is a line of recognized tags. -/
theorem RecLine_of_clean (p : List Char) (hp : Clean p) :
    ∀ r, RecLine r → RecLine (p ++ r) := by
  induction p with
  | nil => intro r hr; exact hr
  | cons c cs ih =>
    intro r hr
    obtain ⟨h1, h2, h3⟩ := hp c (by simp)
    exact RecLine.plain c _ h1 h2 h3 (ih (fun x hx => hp x (by simp [hx])) r hr)

/-- Witness for C7: the line `\t[b]bold[/b]` consists of recognized tags
only and round-trips unchanged through the Repair Engine. -/
theorem c7_witness : fixPass "\t[b]bold[/b]".data = "\t[b]bold[/b]".data :=
  c7_roundtrip_recognized "\t[b]bold[/b]".data
    (RecLine.plain '\t' _ (by decide) (by decide) (by decide)
      (RecLine.tok ['b'] _ (by decide) (by decide)
        (RecLine_of_clean "bold".data (by decide) _
          (RecLine.tok ['/', 'b'] [] (by decide) (by decide) RecLine.nil))))

/-- Claim C10: in the Repair Engine's scan, an unescaped `]` encountered
outside any bracket token is rewritten to `\]` (with the tracked previous
character left unchanged, as the source `continue`s past its update); in
particular the line `\t[b]x[/b]]` — recognized tags plus a stray unescaped
`]` and at least one `[` — is rewritten to `\t[b]x[/b]\]`, differing from
the input even though no unknown bracket token occurs in it. -/
theorem c10_stray_closing_bracket_escaped :
    (∀ (tag : List Char) (l : Char) (cs : List Char), l ≠ '\\' →
      fixGo false tag l (']' :: cs) = '\\' :: ']' :: fixGo false tag l cs) ∧
    fixPass "\t[b]x[/b]]".data = "\t[b]x[/b]\\]".data ∧
    fixPass "\t[b]x[/b]]".data ≠ "\t[b]x[/b]]".data := by
  refine ⟨fun tag l cs hl => fix_stray_out tag l cs hl, ?_, ?_⟩
  · decide
  · decide

/-- Witness for C10: instantiating the universal part at a concrete scan
state and input suffix. -/
theorem c10_witness :
    fixGo false [] ' ' (']' :: "x".data) = '\\' :: ']' :: fixGo false [] ' ' "x".data :=
  c10_stray_closing_bracket_escaped.1 [] ' ' "x".data (by decide)

/-- The diagnostics `check_grammar` prints; each constructor models one
`println!` of the source and carries exactly the data that line
interpolates. -/
inductive Diag where
  | invalidLine (idx : Nat) (l : List Char)
  | dupKey (l : List Char) (idx first : Nat)
  | badTransition (idx : Nat) (prev curr : DState) (l : List Char)
  | parseErr (idx : Nat) (e : ParseErr) (l : List Char)
deriving DecidableEq, Repr

/-- The state `check_grammar` threads across lines: the previous line's
role and the headword map (Rust `HashMap<String, usize>`, modelled as an
association list with unique keys). -/
structure CGSt where
  prev : DState
  words : List (List Char × Nat)
deriving Repr

/-- `HashMap::get` on the association list model. -/
def lookupW : List (List Char × Nat) → List Char → Option Nat
  | [], _ => none
  | e :: es, k => if e.1 = k then some e.2 else lookupW es k

/-- The duplicate-headword bookkeeping of `check_grammar`: an existing key
yields the duplicate diagnostic and leaves the map untouched; a new key is
inserted with the current line index. -/
def keyUpdate (words : List (List Char × Nat)) (idx : Nat) (l : List Char) :
    List (List Char × Nat) × List Diag :=
  match lookupW words l with
  | some v => (words, [Diag.dupKey l idx v])
  | none => ((l, idx) :: words, [])

/-- One iteration of `check_grammar`'s line loop: classify, report
unrecognized roles, track duplicate headwords, check the role transition,
scan inline tags, and make the line's role the new previous state.  The
diagnostics appear in the order the source prints them. -/
def cgStep (st : CGSt) (idx : Nat) (l : List Char) : CGSt × List Diag :=
  (⟨line_type l,
    if line_type l = .Key then (keyUpdate st.words idx l).1 else st.words⟩,
   (if line_type l = .Invalid then [Diag.invalidLine idx l] else []) ++
   (if line_type l = .Key then (keyUpdate st.words idx l).2 else []) ++
   (if can_follow st.prev (line_type l) = false then
      [Diag.badTransition idx st.prev (line_type l) l] else []) ++
   (match parse_line l with
    | some e => [Diag.parseErr idx e l]
    | none => []))

/-- Run `check_grammar`'s loop over the remaining lines. -/
def cgRun (st : CGSt) (idx : Nat) : List (List Char) → List Diag
  | [] => []
  | l :: ls => (cgStep st idx l).2 ++ cgRun (cgStep st idx l).1 (idx + 1) ls

/-- `check_grammar` from `main.rs` on an already-decoded line sequence:
all diagnostics, in print order. -/
def check_grammar (doc : List (List Char)) : List Diag :=
  cgRun ⟨.Begin, []⟩ 0 doc

/-- Claim C9: an illegal role transition does not abort processing — a
diagnostic naming the previous and the current role is recorded, the
validator's state after any line equals that line's role whether or not
the transition was legal, and the loop always continues to the remaining
lines from that new state. -/
theorem c9_validator_resynchronizes (st : CGSt) (idx : Nat) (l : List Char)
    (ls : List (List Char)) :
    (cgStep st idx l).1.prev = line_type l ∧
    (can_follow st.prev (line_type l) = false →
      Diag.badTransition idx st.prev (line_type l) l ∈ (cgStep st idx l).2) ∧
    cgRun st idx (l :: ls) =
      (cgStep st idx l).2 ++ cgRun (cgStep st idx l).1 (idx + 1) ls := by
  refine ⟨rfl, ?_, rfl⟩
  intro h
  simp [cgStep, h]

/-- Witness for C9: a blank line directly after a headword (an illegal
transition) is reported and becomes the new state. -/
theorem c9_witness :
    (cgStep ⟨.Key, []⟩ 7 []).1.prev = DState.EmptyLine ∧
    Diag.badTransition 7 .Key .EmptyLine [] ∈ (cgStep ⟨.Key, []⟩ 7 []).2 := by
  have h := c9_validator_resynchronizes ⟨.Key, []⟩ 7 [] []
  exact ⟨h.1, h.2.1 (by decide)⟩

/-- The Duplicate-Key Tracker exactly as the claim words it, with the
lookup key being the trimmed line text: modelled from the claim to compare
against the source, which keys on the untrimmed line. -/
def specDupRun (words : List (List Char × Nat)) (idx : Nat) :
    List (List Char) → List Diag
  | [] => []
  | l :: ls =>
    if line_type l = .Key then
      match lookupW words (trim l) with
      | some v => Diag.dupKey (trim l) idx v :: specDupRun words (idx + 1) ls
      | none => specDupRun ((trim l, idx) :: words) (idx + 1) ls
    else specDupRun words (idx + 1) ls

def isDupDiag : Diag → Bool
  | .dupKey _ _ _ => true
  | _ => false

/-- Claim C8, counterexample: the tracker keys on the line text exactly as
read, not on the trimmed text.  On the two headword lines `foo` and
`foo ` (trailing blank) the code emits no duplicate diagnostic, while the
claim's trimmed-lookup tracker emits one citing lines 1 and 0. -/
theorem c8_counterexample :
    (check_grammar ["foo".data, "foo ".data]).filter isDupDiag = [] ∧
    specDupRun [] 0 ["foo".data, "foo ".data] = [Diag.dupKey "foo".data 1 0] := by
  exact ⟨by decide, by decide⟩

/-- Claim C8 as amended: for every line classified Headword the tracker
looks up the line text exactly as read (untrimmed) in the key map; when
present it emits a diagnostic citing the current and the first-seen line
numbers and leaves the map unchanged, when absent it inserts the key
mapped to the current line number; and across any line the map only ever
grows, never losing or overwriting an entry. -/
theorem c8_dup_tracker (st : CGSt) (idx : Nat) (l : List Char) :
    (line_type l = .Key →
      (∀ v, lookupW st.words l = some v →
        (cgStep st idx l).1.words = st.words ∧
        Diag.dupKey l idx v ∈ (cgStep st idx l).2) ∧
      (lookupW st.words l = none →
        (cgStep st idx l).1.words = (l, idx) :: st.words)) ∧
    (∀ k v, lookupW st.words k = some v →
      lookupW (cgStep st idx l).1.words k = some v) := by
  constructor
  · intro hk
    constructor
    · intro v hv
      constructor
      · simp [cgStep, keyUpdate, hk, hv]
      · simp [cgStep, keyUpdate, hk, hv]
    · intro hv
      simp [cgStep, keyUpdate, hk, hv]
  · intro k v hkv
    by_cases hk : line_type l = .Key
    · rcases h2 : lookupW st.words l with _ | w
      · have hw : (cgStep st idx l).1.words = (l, idx) :: st.words := by
          simp [cgStep, keyUpdate, hk, h2]
        rw [hw]
        unfold lookupW
        rw [if_neg ?ne]
        · exact hkv
        case ne =>
          intro he
          have he' : l = k := he
          rw [he'] at h2
          rw [h2] at hkv
          cases hkv
      · have hw : (cgStep st idx l).1.words = st.words := by
          simp [cgStep, keyUpdate, hk, h2]
        rw [hw]
        exact hkv
    · have hw : (cgStep st idx l).1.words = st.words := by
        simp [cgStep, hk]
      rw [hw]
      exact hkv

/-- Witness for C8: a repeated headword `foo` first seen at line 0 and
seen again at line 5 is reported with both line numbers, the stored first
occurrence survives, and the map keeps its entry. -/
theorem c8_witness :
    (cgStep ⟨.Text, [("foo".data, 0)]⟩ 5 "foo".data).1.words = [("foo".data, 0)] ∧
    Diag.dupKey "foo".data 5 0 ∈ (cgStep ⟨.Text, [("foo".data, 0)]⟩ 5 "foo".data).2 ∧
    lookupW (cgStep ⟨.Text, [("foo".data, 0)]⟩ 5 "foo".data).1.words "foo".data = some 0 := by
  have h := c8_dup_tracker ⟨.Text, [("foo".data, 0)]⟩ 5 "foo".data
  have h1 := (h.1 (by decide)).1 0 (by decide)
  exact ⟨h1.1, h1.2, h.2 "foo".data 0 (by decide)⟩

end Dsldoc
